import Mathlib

/-!
# Verification of the major/minor change classifier (`SVC.py`)

A shallow embedding of the deterministic core of `Checker` in `SVC.py`:
the text-normalization pipeline (`_cleaner`, `_num_replace`, `_oov_clean`),
the metric engine (`_indexer`, the vocabulary-lookup and vector-construction
parts of `_wmd_getter`) and the decision logic of `predict`.

External collaborators (the frozen SVC model, the word2vec vocabulary and
embedding table, `scribie_num2text.num_to_text`, sklearn's
`cosine_similarity` and pyemd's `emd`) are modelled as parameters; the
optimal-transport solve is modelled from the spec as the minimum-cost
feasible flow.

Strings are processed as `List Char`, mirroring Python's per-character
regular-expression scans.  Python's `re.sub` is modelled by single left to
right scans with leftmost, first-alternative matching and greedy
quantifiers, specialized to the fixed patterns appearing in the source.
Machine floats are idealized as `ℚ` (for the `1e-4` epsilon and the metric
arithmetic) and `ℝ` (for cosine/transport geometry).
-/

namespace SVC
/-- A single apostrophe character, used to build the patterns of `_cleaner`. -/
def apoc : Char := '\''

/-! ## Basic list utilities -/

/-- Length of the longest prefix whose characters satisfy `p`. -/
def countWhile (p : Char → Bool) (l : List Char) : Nat :=
  (l.takeWhile p).length

/-- Does the list start with a character satisfying `p`? -/
def headSat (p : Char → Bool) : List Char → Bool
  | [] => false
  | d :: _ => p d

/-- Split a character list into the maximal runs of characters satisfying
`p`, dropping the separating characters.  With `p = fun c => !(pySpace c)`
this is Python's `str.split()`; with the word/apostrophe class it is the
token scan of `CountVectorizer(token_pattern=..)`. -/
def splitRuns (p : Char → Bool) : List Char → List (List Char)
  | [] => []
  | c :: cs =>
    let r := splitRuns p cs
    if p c then
      if headSat p cs then (c :: r.headD []) :: r.tail else [c] :: r
    else r

/-- Join token lists with a single space: `" ".join(..)`. -/
def joinSp : List (List Char) → List Char
  | [] => []
  | [t] => t
  | t :: t2 :: ts => t ++ ' ' :: joinSp (t2 :: ts)

/-! ## Character classes

The classes appearing in the source's regular expressions, by code point:
`\s` (Python `str.split()` whitespace), `\w` (`[A-Za-z0-9_]`), the
`CountVectorizer` token class `[\w']`, and the `_cleaner` keep-class
`[a-z0-9 ']`. -/

/-- Python whitespace: space, tab, newline, vertical tab, form feed, CR. -/
def pySpace (c : Char) : Bool :=
  c.toNat = 32 || c.toNat = 9 || c.toNat = 10 || c.toNat = 11 || c.toNat = 12 || c.toNat = 13

/-- Non-whitespace: the run class of Python `str.split()`. -/
def notSpace (c : Char) : Bool := !(pySpace c)

/-- Regex `\w`: ASCII letters, digits, underscore. -/
def wordChar (c : Char) : Bool :=
  (97 ≤ c.toNat && c.toNat ≤ 122) || (65 ≤ c.toNat && c.toNat ≤ 90) ||
  (48 ≤ c.toNat && c.toNat ≤ 57) || c.toNat = 95

/-- The `CountVectorizer(token_pattern=..)` class `[\w']`. -/
def tokChar (c : Char) : Bool := wordChar c || c.toNat = 39

/-- The `_cleaner` keep-class `[a-z0-9 ']` (step `[^a-z0-9 ']` → removed). -/
def keepChar (c : Char) : Bool :=
  (97 ≤ c.toNat && c.toNat ≤ 122) || (48 ≤ c.toNat && c.toNat ≤ 57) ||
  c.toNat = 32 || c.toNat = 39

/-- Regex `\d`. -/
def digitChar (c : Char) : Bool := 48 ≤ c.toNat && c.toNat ≤ 57

/-! ## Sorted deduplication (for `CountVectorizer.get_feature_names`) -/

/-- Deduplicate a token list (set semantics; which duplicate survives is
irrelevant because the result is sorted afterwards). -/
def dedupToks : List String → List String
  | [] => []
  | x :: xs =>
    let r := dedupToks xs
    if x ∈ r then r else x :: r

/-- Lexicographic comparison of character lists by code point (Python's
string ordering on the relevant ASCII inputs). -/
def ltChars : List Char → List Char → Bool
  | [], [] => false
  | [], _ :: _ => true
  | _ :: _, [] => false
  | a :: as, b :: bs =>
    if a.toNat < b.toNat then true
    else if b.toNat < a.toNat then false
    else ltChars as bs

/-- Insert into a sorted list (ascending insertion sort step). -/
def insertTok (w : String) : List String → List String
  | [] => [w]
  | x :: xs => if ltChars w.data x.data then w :: x :: xs else x :: insertTok w xs

/-- Ascending sort, modelling Python's `sorted` in `get_feature_names`. -/
def sortToks : List String → List String
  | [] => []
  | x :: xs => insertTok x (sortToks xs)

/-! ## `re.sub` drivers

Python's `re.sub(pat, rep, s)` scans `s` left to right; at each position the
first (leftmost) match is replaced and scanning resumes after the match, in
the original string.  `subGenFuel` is that scan, specialized by a `step`
function that reports (length consumed, replacement text) for a match
starting at the head.  All matches of the source's patterns consume at
least one character; the fuel `l.length` therefore never runs out. -/

def subGenFuel (step : List Char → Option (Nat × List Char)) :
    Nat → List Char → List Char
  | 0, l => l
  | _ + 1, [] => []
  | fuel + 1, c :: cs =>
    match step (c :: cs) with
    | some (Nat.succ n, rep) => rep ++ subGenFuel step fuel (cs.drop n)
    | _ => c :: subGenFuel step fuel cs

def subGen (step : List Char → Option (Nat × List Char)) (l : List Char) : List Char :=
  subGenFuel step l.length l

/-- Match step for a literal pattern with a fixed replacement. -/
def stepLit (pat rep l : List Char) : Option (Nat × List Char) :=
  if pat.isPrefixOf l then some (pat.length, rep) else none

/-- `re.sub(pat, rep, ..)` for a literal pattern. -/
def subLit (pat rep l : List Char) : List Char :=
  subGen (stepLit pat rep) l

/-- First matching literal from an ordered alternation, replaced by nothing
(the shape of the `_metas` pattern). -/
def firstLit (pats : List (List Char)) (l : List Char) : Option (Nat × List Char) :=
  match pats with
  | [] => none
  | p :: ps => if p.isPrefixOf l then some (p.length, []) else firstLit ps l

/-! ### The timestamp pattern

In `_cleaner`: `re.sub("\[*\d:\d+:\d+.\d\]*", "", text)` — note the
unescaped `.`, which matches any character except a newline.  The only
backtracking point is the second `\d+`, whose greedy run must leave one
`.`-char and one digit; `tsBack` tries digit-run prefixes longest first. -/

def tsBack (l4 : List Char) : Nat → Option Nat
  | 0 => none
  | j + 1 =>
    match l4.drop (j + 1) with
    | c :: d :: rest =>
      if c.toNat ≠ 10 ∧ digitChar d then
        some ((j + 1) + 2 + countWhile (fun x => x = ']') rest)
      else tsBack l4 j
    | _ => tsBack l4 j

def stepTs (l : List Char) : Option (Nat × List Char) :=
  let b := countWhile (fun c => c = '[') l
  match l.drop b with
  | c :: l2 =>
    if digitChar c then
      match l2 with
      | d :: l3 =>
        if d = ':' then
          let k1 := countWhile digitChar l3
          if k1 = 0 then none
          else
            match l3.drop k1 with
            | e :: l4 =>
              if e = ':' then
                match tsBack l4 (countWhile digitChar l4) with
                | some m => some (b + 2 + k1 + 1 + m, [])
                | none => none
              else none
            | [] => none
        else none
      | [] => none
    else none
  | [] => none

/-! ### Fixed-form substitutions of `_cleaner` -/

/-- `'til{1,2}` → `until` (greedy: try the two-`l` form first). -/
def stepTil (l : List Char) : Option (Nat × List Char) :=
  if (apoc :: "till".data).isPrefixOf l then some (5, "until".data)
  else if (apoc :: "til".data).isPrefixOf l then some (4, "until".data)
  else none

/-- `(d|g)oin'` → `\g<1>oing ` (with its trailing space). -/
def stepGoin (l : List Char) : Option (Nat × List Char) :=
  if ("doin".data ++ [apoc]).isPrefixOf l then some (5, "doing ".data)
  else if ("goin".data ++ [apoc]).isPrefixOf l then some (5, "going ".data)
  else none

/-- A regex `\b` holds after a word character iff the rest is empty or
starts with a non-word character. -/
def boundaryAfter : List Char → Bool
  | [] => true
  | c :: _ => !wordChar c

/-- `'s\b` → removed. -/
def stepSDrop (l : List Char) : Option (Nat × List Char) :=
  if [apoc, 's'].isPrefixOf l then
    if boundaryAfter (l.drop 2) then some (2, []) else none
  else none

/-- `'d\b` → removed. -/
def stepDDrop (l : List Char) : Option (Nat × List Char) :=
  if [apoc, 'd'].isPrefixOf l then
    if boundaryAfter (l.drop 2) then some (2, []) else none
  else none

/-- `(\d*)(1st)` → `\g<1>0 first` and its `2nd`/`3rd` analogues.  The
greedy `\d*` must end exactly one digit (`dg`) before the literal suffix,
so the match is: a maximal digit run whose last digit is `dg`, followed by
`suf`; the run except its last digit is kept by the backreference. -/
def stepOrd (dg : Char) (suf rep l : List Char) : Option (Nat × List Char) :=
  let k := countWhile digitChar l
  if k = 0 then none
  else if l.getD (k - 1) ' ' = dg && suf.isPrefixOf (l.drop k) then
    some (k + 2, l.take (k - 1) ++ rep)
  else none

/-- `(\d+)(th)` → `\g<1>`: strip the suffix, keep the digits. -/
def stepNth (l : List Char) : Option (Nat × List Char) :=
  let k := countWhile digitChar l
  if k = 0 then none
  else if ['t', 'h'].isPrefixOf (l.drop k) then some (k + 2, l.take k)
  else none

/-! ### The filler alternation

`_fillers` is `\b..\b|\b..\b|..` over the source's list, applied with
`re.sub(.., "", text)`.  Every alternative starts and ends with a word
character, so the leading `\b` is equivalent to "previous char is not a
word char (or start)" and the trailing `\b` to `boundaryAfter`.  In every
alternative each `+`-class is disjoint from the next required character
(`m+` before a space, or a trailing `+` before the `\b`), so the greedy
match without backtracking is exact. -/

inductive FAtom where
  | lit : Char → FAtom
  | plus : Char → FAtom
  | plusDigit : FAtom

def litAtoms (s : String) : List FAtom := s.data.map FAtom.lit

def matchFiller : List FAtom → List Char → Option Nat
  | [], l => if boundaryAfter l then some 0 else none
  | FAtom.lit _ :: _, [] => none
  | FAtom.lit c :: as, d :: l =>
    if d = c then (matchFiller as l).map (· + 1) else none
  | FAtom.plus c :: as, l =>
    let k := countWhile (fun x => x = c) l
    if k = 0 then none else (matchFiller as (l.drop k)).map (· + k)
  | FAtom.plusDigit :: as, l =>
    let k := countWhile digitChar l
    if k = 0 then none else (matchFiller as (l.drop k)).map (· + k)

/-- The filler alternatives, in the exact order of the source list. -/
def fillerPats : List (List FAtom) :=
  [ litAtoms "all right",
    litAtoms "alright",
    [FAtom.plus 'm', FAtom.lit ' ', FAtom.lit 'h', FAtom.plus 'm'],
    litAtoms "okay",
    litAtoms "right",
    litAtoms "uh huh",
    litAtoms "yeah",
    litAtoms "yes",
    litAtoms "yup",
    litAtoms "aha",
    [FAtom.lit 'o', FAtom.plus 'h'],
    [FAtom.lit 'h', FAtom.plus 'm'],
    [FAtom.lit 'm', FAtom.plus 'm'],
    [FAtom.lit 'u', FAtom.plus 'm'],
    litAtoms "actually",
    litAtoms "basically",
    litAtoms "i guess",
    litAtoms "i mean",
    litAtoms "i think",
    litAtoms "kinda",
    litAtoms "kind of",
    litAtoms "like",
    litAtoms "really",
    litAtoms "sorta",
    litAtoms "sort of",
    litAtoms "you know",
    litAtoms "a",
    litAtoms "an",
    litAtoms "the",
    litAtoms "and",
    litAtoms "in",
    litAtoms "it",
    litAtoms "of",
    litAtoms "on",
    litAtoms "or",
    litAtoms "so",
    litAtoms "that",
    litAtoms "to",
    litAtoms "am",
    litAtoms "excuse me",
    litAtoms "o" ++ [FAtom.lit apoc] ++ litAtoms "clock",
    litAtoms "so to speak",
    litAtoms "that" ++ [FAtom.lit apoc] ++ litAtoms "s good",
    [FAtom.lit 's', FAtom.plusDigit] ]

def firstFiller : List (List FAtom) → List Char → Option Nat
  | [], _ => none
  | p :: ps, l =>
    match matchFiller p l with
    | some n => some n
    | none => firstFiller ps l

/-- The `re.sub(self._fillers, "", ..)` scan, tracking whether the current
position is at a word boundary (previous char not a word char). -/
def subFillersFuel : Nat → Bool → List Char → List Char
  | 0, _, l => l
  | _ + 1, _, [] => []
  | fuel + 1, bnd, c :: cs =>
    if bnd then
      match firstFiller fillerPats (c :: cs) with
      | some (Nat.succ n) =>
        subFillersFuel fuel (!wordChar ((c :: cs).getD n ' ')) (cs.drop n)
      | _ => c :: subFillersFuel fuel (!wordChar c) cs
    else c :: subFillersFuel fuel (!wordChar c) cs

def subFillers (l : List Char) : List Char :=
  subFillersFuel l.length true l

/-! ## The normalization pipeline (`Checker._cleaner` and helpers) -/

/-- `re.sub("-|:", " ", text)`. -/
def dashColon (l : List Char) : List Char :=
  l.map (fun c => if c = '-' || c = ':' then ' ' else c)

/-- The bracketed meta annotations of the source's `metas` list. -/
def metaPats : List (List Char) :=
  [ "[applause]", "[automated voice]", "[background conversation]",
    "[chuckle]", "[end paren]", "[foreign language]", "[laughter]",
    "[music]", "[noise]", "[overlapping conversation]", "[pause]",
    "[start paren]", "[video playback]", "[vocalization]"
  ].map String.data

def stepMetas (l : List Char) : Option (Nat × List Char) :=
  firstLit metaPats l

/-- `_cleaner` steps 1-5: lowercase, strip timestamps, dashes/colons to
spaces, strip metas, keep only `[a-z0-9 ']`. -/
def preBlock (l : List Char) : List Char :=
  (subGen stepMetas (dashColon (subGen stepTs (l.map Char.toLower)))).filter keepChar

/-- `_cleaner`'s casual and contracted forms, in source order. -/
def contrBlock (l : List Char) : List Char :=
  let t := subGen stepTil l
  let t := subLit (apoc :: "em".data) "them".data t
  let t := subLit (apoc :: "cause".data) "because".data t
  let t := subGen stepGoin t
  let t := subLit (apoc :: "m".data) " am".data t
  let t := subLit (apoc :: "ve".data) " have".data t
  let t := subLit (apoc :: "ll".data) " will".data t
  let t := subLit ("can".data ++ apoc :: "t".data) "cannot".data t
  let t := subLit ("won".data ++ apoc :: "t".data) "will not".data t
  let t := subLit ("ain".data ++ apoc :: "t".data) "are not".data t
  let t := subLit ("n".data ++ apoc :: "t".data) " not".data t
  let t := subGen stepSDrop t
  let t := subGen stepDDrop t
  t

/-- `_cleaner`'s ordinal normalization, in source order. -/
def ordBlock (l : List Char) : List Char :=
  let t := subGen (stepOrd '1' ['s', 't'] "0 first".data) l
  let t := subGen (stepOrd '2' ['n', 'd'] "0 second".data) t
  let t := subGen (stepOrd '3' ['r', 'd'] "0 third".data) t
  let t := subGen stepNth t
  t

/-- `Checker._num_replace`: find all maximal digit runs (`re.findall("\d+")`),
then for each found run in order globally substitute its digit string by the
space-padded expansion.  `ntt` is the external `scribie_num2text.num_to_text`
collaborator. -/
def numReplace (ntt : List Char → List Char) (l : List Char) : List Char :=
  (splitRuns digitChar l).foldl
    (fun acc num => subGen (stepLit num (' ' :: (ntt num ++ [' ']))) acc) l

/-- `Checker._oov_clean`: split on whitespace, keep tokens that are
vocabulary keys, rejoin with single spaces. -/
def oovClean (vocab : String → Option Nat) (l : List Char) : List Char :=
  joinSp ((splitRuns notSpace l).filter (fun t => (vocab (String.mk t)).isSome))

/-- The per-string body of `Checker._cleaner`. -/
def cleanerOne (vocab : String → Option Nat) (ntt : List Char → List Char)
    (l : List Char) : List Char :=
  oovClean vocab (numReplace ntt (subFillers (ordBlock (contrBlock (preBlock l)))))

/-- `Checker._cleaner` on one string. -/
def cleanOne (vocab : String → Option Nat) (ntt : List Char → List Char)
    (s : String) : String :=
  String.mk (cleanerOne vocab ntt s.data)

/-- `Checker._cleaner` on a list of strings. -/
def cleaner (vocab : String → Option Nat) (ntt : List Char → List Char)
    (strings : List String) : List String :=
  strings.map (cleanOne vocab ntt)

/-- The order-swapped variant for the spec's order-sensitivity property:
filler removal applied before contraction expansion, everything else
unchanged. -/
def cleanOneSwapped (vocab : String → Option Nat) (ntt : List Char → List Char)
    (s : String) : String :=
  String.mk (oovClean vocab (numReplace ntt (ordBlock (contrBlock (subFillers (preBlock s.data))))))

/-- Python `str.split()` of a string, as `String` tokens. -/
def pyTokens (s : String) : List String :=
  (splitRuns notSpace s.data).map String.mk

/-- Single-space join of a token list. -/
def joinTokens (ts : List String) : String :=
  String.mk (joinSp (ts.map String.data))

/-! ## The decision wrapper (`Checker.predict`, per row) -/

/-- The per-row decision logic of `Checker.predict`: clean both strings;
an empty cleaned second string is labelled "1", else an empty cleaned first
string is labelled "2", else the frozen classifier (here the opaque
`classify`, subsuming `_generate` and `self.model.predict`) decides. -/
def predictPair (vocab : String → Option Nat) (ntt : List Char → List Char)
    (classify : String → String → String) (p : String × String) : String :=
  let s1 := cleanOne vocab ntt p.1
  let s2 := cleanOne vocab ntt p.2
  if s2 = "" then "1"
  else if s1 = "" then "2"
  else classify s1 s2

/-- `Checker.predict` over the parsed rows, with the comma join of the
printed output. -/
def predict (vocab : String → Option Nat) (ntt : List Char → List Char)
    (classify : String → String → String) (rows : List (String × String)) : String :=
  String.intercalate "," (rows.map (predictPair vocab ntt classify))

/-! ## The metric engine

`self.eps = 1e-4` is idealized as the rational `1/10000`.  Vocabulary
lookups (`self.vocab_dict[word]`) raise `KeyError(word)` on a missing key;
this is modelled by `Except String`, the error carrying the missing word. -/

def eps : ℚ := 1 / 10000

/-- Sequential vocabulary lookup of a token list; the first missing token
raises (Python list comprehension over `self.vocab_dict[word]`). -/
def lookAll (vocab : String → Option Nat) : List String → Except String (List Nat)
  | [] => Except.ok []
  | w :: ws =>
    match vocab w with
    | some i => (lookAll vocab ws).map (fun r => i :: r)
    | none => Except.error w

/-- `Checker._indexer`: sum the vocabulary indices of the
whitespace-tokens of each string and form `(s2 - s1) / (s2 + s1 + eps)`. -/
def indexer (vocab : String → Option Nat) (s1 s2 : String) : Except String ℚ := do
  let i1 ← lookAll vocab (pyTokens s1)
  let i2 ← lookAll vocab (pyTokens s2)
  pure (((i2.sum : ℚ) - (i1.sum : ℚ)) / ((i2.sum : ℚ) + (i1.sum : ℚ) + eps))

/-- The token scan of `CountVectorizer(token_pattern="[\w']+")` with its
default lowercasing. -/
def cvTokens (s : String) : List String :=
  (splitRuns tokChar (s.data.map Char.toLower)).map String.mk

/-- `vect.get_feature_names()`: the sorted set of tokens of both strings. -/
def wmdFeatures (s1 s2 : String) : List String :=
  sortToks (dedupToks (cvTokens s1 ++ cvTokens s2))

/-- A count vector over the feature list (`vect.transform`). -/
def rawVec (feats : List String) (s : String) : List ℚ :=
  feats.map (fun w => ((cvTokens s).count w : ℚ))

/-- `v /= (v.sum() + self.eps)`. -/
def normVec (v : List ℚ) : List ℚ :=
  v.map (fun x => x / (v.sum + eps))

/-- Entry `i` of the normalized count vector of `s`, as a rational. -/
def wmdVecQ (feats : List String) (s : String) (i : Nat) : ℚ :=
  (normVec (rawVec feats s)).getD i 0

/-- The embedding dimension of the fixed word2vec table. -/
def embDim : Nat := 300

/-- A transport plan between the two mass vectors: non-negative, rows
summing to `v1`, columns summing to `v2` (spec 4.3 step 5). -/
def FeasibleFlow {n : Nat} (v1 v2 : Fin n → ℝ) (F : Fin n → Fin n → ℝ) : Prop :=
  (∀ i j, 0 ≤ F i j) ∧ (∀ i, ∑ j, F i j = v1 i) ∧ (∀ j, ∑ i, F i j = v2 j)

/-- Modelled from the spec: the external `pyemd.emd` collaborator returns
the minimum total cost `∑ F⊙D` over feasible flows (spec 4.3 step 5, the
"exact transportation-problem solver" behind the §9 `solve_transport`
interface).  `IsEMD v1 v2 D c` states that `c` is that minimum: attained by
some feasible flow and a lower bound for all of them. -/
def IsEMD {n : Nat} (v1 v2 : Fin n → ℝ) (D : Fin n → Fin n → ℝ) (c : ℝ) : Prop :=
  (∃ F : Fin n → Fin n → ℝ,
      FeasibleFlow v1 v2 F ∧ ∑ i, ∑ j, F i j * D i j = c) ∧
  (∀ F : Fin n → Fin n → ℝ,
      FeasibleFlow v1 v2 F → c ≤ ∑ i, ∑ j, F i j * D i j)

/-- Cosine similarity of two embedding vectors (sklearn
`cosine_similarity`): inner product over the product of Euclidean norms. -/
noncomputable def cosSim {m : Nat} (u v : Fin m → ℝ) : ℝ :=
  (∑ i, u i * v i) /
    (Real.sqrt (∑ i, u i * u i) * Real.sqrt (∑ i, v i * v i))

/-- `Checker._wmd_getter`, as a relation between the inputs and the value
returned by the external solver: the features of the two strings are looked
up in the vocabulary (`KeyError` on a missing word); on success the
normalized count vectors and the cosine-distance matrix
`D[i][j] = 1 - cosine_similarity` over the looked-up embedding rows are
passed to the transport solve. -/
def wmdColl (vocab : String → Option Nat) (emb : Nat → Fin embDim → ℝ)
    (s1 s2 : String) (c : ℝ) : Prop :=
  ∃ idxs : List Nat,
    lookAll vocab (wmdFeatures s1 s2) = Except.ok idxs ∧
    IsEMD (fun i : Fin (wmdFeatures s1 s2).length => ((wmdVecQ (wmdFeatures s1 s2) s1 i : ℚ) : ℝ))
      (fun i : Fin (wmdFeatures s1 s2).length => ((wmdVecQ (wmdFeatures s1 s2) s2 i : ℚ) : ℝ))
      (fun i j => 1 - cosSim (emb (idxs.getD i 0)) (emb (idxs.getD j 0))) c

/-- Sum of the vocabulary indices of a string's whitespace tokens, as a
rational (the `s1`/`s2` sums of `_indexer`, under the all-in-vocabulary
precondition). -/
def sumIdx (vocab : String → Option Nat) (s : String) : ℚ :=
  (((pyTokens s).map (fun w => (vocab w).getD 0)).sum : ℚ)

/-- All characters lowercase-alphanumeric-apostrophe-space: the shape of
any normalized string. -/
@[reducible] def CleanStr (s : String) : Prop := s.data.all keepChar = true

/-- The diagonal transport plan moving each mass to itself. -/
def diagFlow {n : Nat} (v : Fin n → ℝ) : Fin n → Fin n → ℝ :=
  fun i j => if i = j then v i else 0

instance {α β : Type _} [DecidableEq α] [DecidableEq β] : DecidableEq (Except α β)
  | Except.error x, Except.error y =>
    if h : x = y then .isTrue (congrArg _ h)
    else .isFalse (fun hc => h (by injection hc))
  | Except.error _, Except.ok _ => .isFalse (fun hc => Except.noConfusion hc)
  | Except.ok _, Except.error _ => .isFalse (fun hc => Except.noConfusion hc)
  | Except.ok x, Except.ok y =>
    if h : x = y then .isTrue (congrArg _ h)
    else .isFalse (fun hc => h (by injection hc))

/-! ## Concrete test fixtures

Small synthetic vocabularies and a stand-in `num_to_text` used to
instantiate the theorems on concrete inputs (the spec's design notes call
for exactly this: components injectable "with small synthetic
vocabularies"). -/

/-- A small synthetic vocabulary. -/
def testVocab : String → Option Nat := fun w =>
  if w = "i" then some 0
  else if w = "think" then some 1
  else if w = "am" then some 2
  else none

/-- A trivial stand-in for `num_to_text` (never reached on digit-free
inputs). -/
def ntt0 : List Char → List Char := fun _ => []

/-- A stand-in for `num_to_text` agreeing with the spec's English word
forms on the inputs used ("42" → "forty two" style). -/
def nttEx : List Char → List Char := fun l =>
  if l = ['2'] then "two".data
  else if l = ['2', '1'] then "twenty one".data
  else "number".data

/-- The string `i'm`. -/
def strIm : String := String.mk ['i', apoc, 'm']

/-- A one-word vocabulary mapping `a` to index 0. -/
def uniVocab : String → Option Nat := fun w =>
  if w = "a" then some 0 else none

/-- A two-word vocabulary with distinct indices for the indexer witness. -/
def pairVocab : String → Option Nat := fun w =>
  if w = "x" then some 1
  else if w = "y" then some 2
  else none

/-- An opaque classifier stand-in. -/
def cl9 : String → String → String := fun _ _ => "9"

/-- A constant nonzero embedding table. -/
def embW : Nat → Fin embDim → ℝ := fun _ _ => 1

/-! ## Lemmas and claim theorems -/

theorem splitRuns_cons (p : Char → Bool) (c : Char) (cs : List Char) :
    splitRuns p (c :: cs) =
      if p c then (c :: cs.takeWhile p) :: splitRuns p (cs.dropWhile p)
      else splitRuns p cs := by
  induction cs generalizing c with
  | nil => by_cases h : p c <;> simp [splitRuns, headSat, h]
  | cons d cs ih =>
    by_cases hc : p c
    · by_cases hd : p d
      · rw [splitRuns, ih d]
        simp [headSat, hc, hd, List.takeWhile_cons, List.dropWhile_cons]
      · rw [splitRuns]
        simp [headSat, hc, hd, List.takeWhile_cons, List.dropWhile_cons]
    · rw [splitRuns]
      simp [hc]

theorem length_dropWhile_le (p : Char → Bool) (l : List Char) :
    (l.dropWhile p).length ≤ l.length := by
  induction l with
  | nil => simp [List.dropWhile]
  | cons c cs ih =>
    by_cases h : p c
    · simp only [List.dropWhile_cons, h, if_true]
      exact Nat.le_succ_of_le ih
    · simp [List.dropWhile_cons, h]

theorem mem_takeWhile_sat (p : Char → Bool) (l : List Char) :
    ∀ c ∈ l.takeWhile p, p c = true := by
  induction l with
  | nil => simp [List.takeWhile]
  | cons d cs ih =>
    by_cases h : p d
    · simp only [List.takeWhile_cons, h, if_true]
      intro c hc
      rcases List.mem_cons.1 hc with h1 | h2
      · simpa [h1] using h
      · exact ih c h2
    · simp [List.takeWhile_cons, h]

/-- Every token produced by `splitRuns` is nonempty and all of its
characters satisfy the run predicate. -/
theorem splitRuns_sat (p : Char → Bool) :
    ∀ (n : Nat) (l : List Char), l.length ≤ n →
      ∀ t ∈ splitRuns p l, t ≠ [] ∧ ∀ c ∈ t, p c = true := by
  intro n
  induction n with
  | zero =>
    intro l hl
    have : l = [] := List.length_eq_zero.1 (Nat.le_zero.1 hl)
    subst this
    simp [splitRuns]
  | succ n ih =>
    intro l hl t ht
    match l with
    | [] => simp [splitRuns] at ht
    | c :: cs =>
      rw [splitRuns_cons] at ht
      by_cases hc : p c
      · rw [if_pos hc] at ht
        rcases List.mem_cons.1 ht with h1 | h2
        · subst h1
          refine ⟨by simp, ?_⟩
          intro x hx
          rcases List.mem_cons.1 hx with h3 | h4
          · simpa [h3] using hc
          · exact mem_takeWhile_sat p cs x h4
        · have hlen : (cs.dropWhile p).length ≤ n := by
            have := length_dropWhile_le p cs
            have hcs : cs.length ≤ n := Nat.le_of_succ_le_succ (by simpa using hl)
            omega
          exact ih (cs.dropWhile p) hlen t h2
      · rw [if_neg hc] at ht
        have hcs : cs.length ≤ n := Nat.le_of_succ_le_succ (by simpa using hl)
        exact ih cs hcs t ht

theorem takeWhile_append_stop (p : Char → Bool) (t rest : List Char)
    (hall : ∀ c ∈ t, p c = true)
    (hrest : ∀ s, rest.head? = some s → p s = false) :
    (t ++ rest).takeWhile p = t := by
  induction t with
  | nil =>
    match rest with
    | [] => simp [List.takeWhile]
    | s :: r => simp [List.takeWhile_cons, hrest s rfl]
  | cons c cs ih =>
    have hc : p c = true := hall c (by simp)
    simp only [List.cons_append, List.takeWhile_cons, hc, if_true]
    rw [ih (fun x hx => hall x (by simp [hx]))]

theorem dropWhile_append_stop (p : Char → Bool) (t rest : List Char)
    (hall : ∀ c ∈ t, p c = true)
    (hrest : ∀ s, rest.head? = some s → p s = false) :
    (t ++ rest).dropWhile p = rest := by
  induction t with
  | nil =>
    match rest with
    | [] => simp [List.dropWhile]
    | s :: r => simp [List.dropWhile_cons, hrest s rfl]
  | cons c cs ih =>
    have hc : p c = true := hall c (by simp)
    simp only [List.cons_append, List.dropWhile_cons, hc, if_true]
    exact ih (fun x hx => hall x (by simp [hx]))

theorem splitRuns_token_append (p : Char → Bool) (t rest : List Char)
    (hne : t ≠ []) (hall : ∀ c ∈ t, p c = true)
    (hrest : ∀ s, rest.head? = some s → p s = false) :
    splitRuns p (t ++ rest) = t :: splitRuns p rest := by
  match t with
  | [] => exact absurd rfl hne
  | c :: cs =>
    have hc : p c = true := hall c (by simp)
    have hcs : ∀ x ∈ cs, p x = true := fun x hx => hall x (by simp [hx])
    simp only [List.cons_append]
    rw [splitRuns_cons, if_pos hc,
      takeWhile_append_stop p cs rest hcs hrest,
      dropWhile_append_stop p cs rest hcs hrest]

/-- Splitting after joining recovers the token list, provided every token is
nonempty, consists of run characters, and the space is not a run character. -/
theorem splitRuns_joinSp (p : Char → Bool) (hsp : p ' ' = false) :
    ∀ toks : List (List Char),
      (∀ t ∈ toks, t ≠ [] ∧ ∀ c ∈ t, p c = true) →
      splitRuns p (joinSp toks) = toks := by
  intro toks
  induction toks with
  | nil => intro _; simp [joinSp, splitRuns]
  | cons t ts ih =>
    intro h
    obtain ⟨hne, hall⟩ := h t (by simp)
    match ts with
    | [] =>
      have := splitRuns_token_append p t [] hne hall (by simp)
      simpa [joinSp] using this
    | t2 :: ts2 =>
      have hrec : splitRuns p (joinSp (t2 :: ts2)) = t2 :: ts2 :=
        ih (fun x hx => h x (by simp [hx]))
      have hhead : ∀ s, (' ' :: joinSp (t2 :: ts2)).head? = some s → p s = false := by
        intro s hs
        simp only [List.head?] at hs
        cases hs
        exact hsp
      have := splitRuns_token_append p t (' ' :: joinSp (t2 :: ts2)) hne hall hhead
      rw [joinSp]
      rw [this, splitRuns_cons, if_neg (by simp [hsp]), hrec]

theorem toLower_eq_self_of_keep (c : Char) (h : keepChar c = true) :
    c.toLower = c := by
  have hn : ¬(c.toNat ≥ 65 ∧ c.toNat ≤ 90) := by
    simp only [keepChar, Bool.or_eq_true, Bool.and_eq_true, decide_eq_true_eq] at h
    omega
  simp [Char.toLower, hn]

/-- On the keep-class, the whitespace split and the `[\w']` token split use
complementary classes. -/
theorem notSpace_eq_tokChar_of_keep (c : Char) (h : keepChar c = true) :
    notSpace c = tokChar c := by
  simp only [keepChar, Bool.or_eq_true, Bool.and_eq_true, decide_eq_true_eq] at h
  rw [Bool.eq_iff_iff]
  simp only [notSpace, pySpace, tokChar, wordChar, Bool.or_eq_true, Bool.and_eq_true,
    Bool.not_eq_true', Bool.or_eq_false_iff, decide_eq_true_eq, decide_eq_false_iff_not]
  omega

theorem takeWhile_congr_chars (p q : Char → Bool) (l : List Char)
    (h : ∀ c ∈ l, p c = q c) : l.takeWhile p = l.takeWhile q := by
  induction l with
  | nil => simp
  | cons c cs ih =>
    have hc := h c (by simp)
    simp only [List.takeWhile_cons, hc]
    by_cases hq : q c
    · simp only [hq, if_true]
      rw [ih (fun x hx => h x (by simp [hx]))]
    · simp [hq]

theorem dropWhile_congr_chars (p q : Char → Bool) (l : List Char)
    (h : ∀ c ∈ l, p c = q c) : l.dropWhile p = l.dropWhile q := by
  induction l with
  | nil => simp
  | cons c cs ih =>
    have hc := h c (by simp)
    simp only [List.dropWhile_cons, hc]
    by_cases hq : q c
    · simp only [hq, if_true]
      exact ih (fun x hx => h x (by simp [hx]))
    · simp [hq]

theorem splitRuns_congr (p q : Char → Bool) :
    ∀ (n : Nat) (l : List Char), l.length ≤ n →
      (∀ c ∈ l, p c = q c) → splitRuns p l = splitRuns q l := by
  intro n
  induction n with
  | zero =>
    intro l hl _
    have : l = [] := List.length_eq_zero.1 (Nat.le_zero.1 hl)
    subst this; rfl
  | succ n ih =>
    intro l hl h
    match l with
    | [] => rfl
    | c :: cs =>
      have hcs : cs.length ≤ n := Nat.le_of_succ_le_succ (by simpa using hl)
      have hcsh : ∀ x ∈ cs, p x = q x := fun x hx => h x (by simp [hx])
      rw [splitRuns_cons, splitRuns_cons, h c (by simp)]
      by_cases hq : q c
      · simp only [hq, if_true]
        rw [takeWhile_congr_chars p q cs hcsh, dropWhile_congr_chars p q cs hcsh]
        have hdrop : (cs.dropWhile q).length ≤ n :=
          le_trans (length_dropWhile_le q cs) hcs
        have hdroph : ∀ x ∈ cs.dropWhile q, p x = q x := by
          intro x hx
          exact hcsh x ((List.dropWhile_sublist q).subset hx)
        rw [ih (cs.dropWhile q) hdrop hdroph]
      · simp only [hq, if_false]
        exact ih cs hcs hcsh

theorem mem_dedupToks (a : String) : ∀ l : List String, a ∈ dedupToks l ↔ a ∈ l := by
  intro l
  induction l with
  | nil => simp [dedupToks]
  | cons x xs ih =>
    by_cases hx : x ∈ dedupToks xs
    · simp only [dedupToks, hx, if_true, List.mem_cons]
      constructor
      · intro h; exact Or.inr (ih.1 h)
      · rintro (h | h)
        · subst h; exact hx
        · exact ih.2 h
    · simp only [dedupToks, hx, if_false, List.mem_cons, ih]

theorem mem_insertTok (a w : String) :
    ∀ l : List String, a ∈ insertTok w l ↔ a = w ∨ a ∈ l := by
  intro l
  induction l with
  | nil => simp [insertTok]
  | cons x xs ih =>
    rw [insertTok]
    by_cases h : ltChars w.data x.data
    · rw [if_pos h]; simp
    · rw [if_neg h]
      simp only [List.mem_cons, ih]
      tauto

theorem mem_sortToks (a : String) : ∀ l : List String, a ∈ sortToks l ↔ a ∈ l := by
  intro l
  induction l with
  | nil => simp [sortToks]
  | cons x xs ih =>
    simp only [sortToks, mem_insertTok, List.mem_cons, ih]

theorem getD_rat_nonneg : ∀ (v : List ℚ), (∀ x ∈ v, 0 ≤ x) → ∀ i : Nat, 0 ≤ v.getD i 0 := by
  intro v
  induction v with
  | nil => intro _ i; simp [List.getD]
  | cons x xs ih =>
    intro h i
    match i with
    | 0 => simpa using h x (by simp)
    | Nat.succ j =>
      simpa using ih (fun y hy => h y (by simp [hy])) j

/-! ## Supporting lemmas -/

theorem lookAll_ok_of_all (vocab : String → Option Nat) :
    ∀ l : List String, (∀ w ∈ l, (vocab w).isSome) →
      lookAll vocab l = Except.ok (l.map (fun w => (vocab w).getD 0)) := by
  intro l
  induction l with
  | nil => intro _; rfl
  | cons w ws ih =>
    intro h
    have hw : (vocab w).isSome := h w (by simp)
    obtain ⟨i, hi⟩ := Option.isSome_iff_exists.1 hw
    rw [lookAll, hi, ih (fun x hx => h x (by simp [hx]))]
    simp [Except.map, hi]

theorem lookAll_error_of_mem (vocab : String → Option Nat) :
    ∀ (l : List String) (w : String), w ∈ l → vocab w = none →
      ∃ e, lookAll vocab l = Except.error e := by
  intro l
  induction l with
  | nil => intro w h; simp at h
  | cons x xs ih =>
    intro w hw hnone
    rw [lookAll]
    match hx : vocab x with
    | none => exact ⟨x, rfl⟩
    | some i =>
      have hwx : w ∈ xs := by
        rcases List.mem_cons.1 hw with h | h
        · subst h; rw [hx] at hnone; cases hnone
        · exact h
      obtain ⟨e, he⟩ := ih w hwx hnone
      exact ⟨e, by rw [he]; rfl⟩

theorem sum_map_div (v : List ℚ) (d : ℚ) :
    (v.map (fun x => x / d)).sum = v.sum / d := by
  induction v with
  | nil => simp
  | cons x xs ih => simp [ih, add_div]

theorem normVec_sum (v : List ℚ) :
    (normVec v).sum = v.sum / (v.sum + eps) := by
  simp [normVec, sum_map_div]

theorem rawVec_nonneg (feats : List String) (s : String) :
    ∀ x ∈ rawVec feats s, 0 ≤ x := by
  intro x hx
  obtain ⟨w, _, rfl⟩ := List.mem_map.1 hx
  positivity

theorem rawVec_sum_nonneg (feats : List String) (s : String) :
    0 ≤ (rawVec feats s).sum :=
  List.sum_nonneg (rawVec_nonneg feats s)

theorem normVec_nonneg (feats : List String) (s : String) :
    ∀ x ∈ normVec (rawVec feats s), 0 ≤ x := by
  intro x hx
  obtain ⟨y, hy, rfl⟩ := List.mem_map.1 hx
  have h0 : 0 ≤ y := rawVec_nonneg feats s y hy
  have hd : 0 < (rawVec feats s).sum + eps := by
    have := rawVec_sum_nonneg feats s
    have he : (0:ℚ) < eps := by norm_num [eps]
    linarith
  positivity

theorem wmdVecQ_nonneg (feats : List String) (s : String) (i : Nat) :
    0 ≤ wmdVecQ feats s i :=
  getD_rat_nonneg _ (normVec_nonneg feats s) i

/-- The tokens of an `_oov_clean` output are exactly the vocabulary-key
tokens of the input. -/
theorem splitRuns_oovClean (vocab : String → Option Nat) (l : List Char) :
    splitRuns notSpace (oovClean vocab l) =
      (splitRuns notSpace l).filter (fun t => (vocab (String.mk t)).isSome) := by
  apply splitRuns_joinSp notSpace (by decide)
  intro t ht
  have ht2 := List.mem_filter.1 ht
  exact splitRuns_sat notSpace l.length l (le_refl _) t ht2.1

theorem dotSelf_nonneg {m : Nat} (u : Fin m → ℝ) : 0 ≤ ∑ i, u i * u i :=
  Finset.sum_nonneg (fun i _ => mul_self_nonneg (u i))

theorem cosSim_le_one {m : Nat} (u v : Fin m → ℝ) : cosSim u v ≤ 1 := by
  rw [cosSim]
  set d := Real.sqrt (∑ i, u i * u i) * Real.sqrt (∑ i, v i * v i) with hd
  have hd0 : 0 ≤ d := mul_nonneg (Real.sqrt_nonneg _) (Real.sqrt_nonneg _)
  rcases eq_or_lt_of_le hd0 with h0 | hpos
  · rw [← h0, div_zero]; norm_num
  · rw [div_le_one hpos, hd]
    have hcs := Real.sum_mul_le_sqrt_mul_sqrt Finset.univ u v
    have h1 : (∑ i, u i ^ 2) = ∑ i, u i * u i := by
      apply Finset.sum_congr rfl; intro i _; ring
    have h2 : (∑ i, v i ^ 2) = ∑ i, v i * v i := by
      apply Finset.sum_congr rfl; intro i _; ring
    rwa [h1, h2] at hcs

theorem cosSim_self {m : Nat} (u : Fin m → ℝ) (h : (∑ i, u i * u i) ≠ 0) :
    cosSim u u = 1 := by
  rw [cosSim, Real.mul_self_sqrt (dotSelf_nonneg u), div_self h]

theorem map_toLower_id (l : List Char) (h : ∀ c ∈ l, keepChar c = true) :
    l.map Char.toLower = l := by
  induction l with
  | nil => rfl
  | cons c cs ih =>
    rw [List.map_cons, toLower_eq_self_of_keep c (h c (by simp)),
      ih (fun x hx => h x (by simp [hx]))]

/-- On clean strings the `CountVectorizer` token split coincides with the
whitespace split. -/
theorem cvTokens_eq_pyTokens (s : String) (h : CleanStr s) :
    cvTokens s = pyTokens s := by
  have hall : ∀ c ∈ s.data, keepChar c = true := by
    intro c hc
    exact List.all_eq_true.1 h c hc
  rw [cvTokens, pyTokens, map_toLower_id s.data hall]
  congr 1
  exact splitRuns_congr tokChar notSpace s.data.length s.data (le_refl _)
    (fun c hc => (notSpace_eq_tokChar_of_keep c (hall c hc)).symm)

theorem mem_wmdFeatures (t : String) (s1 s2 : String) :
    t ∈ wmdFeatures s1 s2 ↔ t ∈ cvTokens s1 ++ cvTokens s2 := by
  rw [wmdFeatures, mem_sortToks, mem_dedupToks]

theorem cost_nonneg {n : Nat} (F D : Fin n → Fin n → ℝ)
    (hF : ∀ i j, 0 ≤ F i j) (hD : ∀ i j, 0 ≤ D i j) :
    0 ≤ ∑ i, ∑ j, F i j * D i j :=
  Finset.sum_nonneg fun i _ =>
    Finset.sum_nonneg fun j _ => mul_nonneg (hF i j) (hD i j)

theorem diagFlow_feasible {n : Nat} (v : Fin n → ℝ) (hv : ∀ i, 0 ≤ v i) :
    FeasibleFlow v v (diagFlow v) := by
  refine ⟨?_, ?_, ?_⟩
  · intro i j
    rw [diagFlow]
    by_cases h : i = j
    · simpa [h] using hv j
    · simp [h]
  · intro i
    simp [diagFlow]
  · intro j
    simp [diagFlow]

theorem diagFlow_cost {n : Nat} (v : Fin n → ℝ) (D : Fin n → Fin n → ℝ)
    (hD0 : ∀ i, D i i = 0) :
    ∑ i, ∑ j, diagFlow v i j * D i j = 0 := by
  have h : ∀ i : Fin n, ∑ j, diagFlow v i j * D i j = 0 := by
    intro i
    have : ∀ j : Fin n, diagFlow v i j * D i j = if i = j then v i * D i j else 0 := by
      intro j
      rw [diagFlow]
      by_cases hij : i = j <;> simp [hij]
    rw [Finset.sum_congr rfl (fun j _ => this j)]
    simp [hD0 i]
  rw [Finset.sum_congr rfl (fun i _ => h i)]
  simp

/-- With equal marginals, a zero-diagonal non-negative cost matrix gives
optimal transport cost exactly 0. -/
theorem isEMD_self_zero {n : Nat} (v : Fin n → ℝ) (hv : ∀ i, 0 ≤ v i)
    (D : Fin n → Fin n → ℝ) (hD0 : ∀ i, D i i = 0) (hDpos : ∀ i j, 0 ≤ D i j) :
    IsEMD v v D 0 := by
  refine ⟨⟨diagFlow v, diagFlow_feasible v hv, diagFlow_cost v D hD0⟩, ?_⟩
  intro F hF
  exact cost_nonneg F D hF.1 hDpos

theorem embW_dot_ne_zero : ∀ m : Nat, (∑ i, embW m i * embW m i) ≠ 0 := by
  intro m
  have h1 : ∀ i : Fin embDim, embW m i * embW m i = 1 := by
    intro i; rw [embW]; ring
  rw [Finset.sum_congr rfl (fun i _ => h1 i), Finset.sum_const, Finset.card_univ,
    Fintype.card_fin, nsmul_eq_mul, mul_one]
  norm_num [embDim]

theorem data_mk (l : List Char) : (String.mk l).data = l := rfl

theorem cleanOne_def (vocab : String → Option Nat) (ntt : List Char → List Char)
    (s : String) : cleanOne vocab ntt s = String.mk (cleanerOne vocab ntt s.data) := rfl

theorem cleanerOne_def (vocab : String → Option Nat) (ntt : List Char → List Char)
    (l : List Char) :
    cleanerOne vocab ntt l =
      oovClean vocab (numReplace ntt (subFillers (ordBlock (contrBlock (preBlock l))))) := rfl

theorem oovClean_def (vocab : String → Option Nat) (l : List Char) :
    oovClean vocab l =
      joinSp ((splitRuns notSpace l).filter (fun t => (vocab (String.mk t)).isSome)) := rfl

theorem pyTokens_mk (l : List Char) :
    pyTokens (String.mk l) = (splitRuns notSpace l).map String.mk := rfl

theorem joinTokens_def (ts : List String) :
    joinTokens ts = String.mk (joinSp (ts.map String.data)) := rfl

theorem indexer_eq_of_ok (vocab : String → Option Nat) (s1 s2 : String)
    (L1 L2 : List Nat)
    (hA : lookAll vocab (pyTokens s1) = Except.ok L1)
    (hB : lookAll vocab (pyTokens s2) = Except.ok L2) :
    indexer vocab s1 s2 =
      Except.ok (((L2.sum : ℚ) - (L1.sum : ℚ)) /
        ((L2.sum : ℚ) + (L1.sum : ℚ) + eps)) := by
  unfold indexer
  rw [hA]
  simp only [hB]
  rfl

theorem indexer_error_left (vocab : String → Option Nat) (s1 s2 : String) (e : String)
    (hA : lookAll vocab (pyTokens s1) = Except.error e) :
    indexer vocab s1 s2 = Except.error e := by
  unfold indexer
  rw [hA]
  rfl

theorem indexer_error_right (vocab : String → Option Nat) (s1 s2 : String)
    (L1 : List Nat) (e : String)
    (hA : lookAll vocab (pyTokens s1) = Except.ok L1)
    (hB : lookAll vocab (pyTokens s2) = Except.error e) :
    indexer vocab s1 s2 = Except.error e := by
  unfold indexer
  rw [hA]
  simp only [hB]
  rfl

/-! ## The claims -/

/-- Claim C1: for every pair of raw input strings, the decision wrapper
labels the pair "1" whenever the normalized second string is empty
(regardless of the first string), labels it "2" whenever the normalized
second string is non-empty and the normalized first string is empty,
labels the doubly-empty pair "1" (the empty-second-string branch is
evaluated first), and in these cases the result is independent of the
classifier — the metric engine and classifier are never invoked. -/
theorem decision_edge_cases (vocab : String → Option Nat)
    (ntt : List Char → List Char) (classify : String → String → String)
    (p : String × String) :
    (cleanOne vocab ntt p.2 = "" → predictPair vocab ntt classify p = "1") ∧
    (cleanOne vocab ntt p.2 ≠ "" → cleanOne vocab ntt p.1 = "" →
      predictPair vocab ntt classify p = "2") ∧
    (cleanOne vocab ntt p.1 = "" ∧ cleanOne vocab ntt p.2 = "" →
      predictPair vocab ntt classify p = "1") ∧
    ((cleanOne vocab ntt p.1 = "" ∨ cleanOne vocab ntt p.2 = "") →
      ∀ classify2, predictPair vocab ntt classify p =
        predictPair vocab ntt classify2 p) := by
  refine ⟨?_, ?_, ?_, ?_⟩
  · intro h2
    simp [predictPair, h2]
  · intro h2 h1
    simp [predictPair, h1, h2]
  · rintro ⟨h1, h2⟩
    simp [predictPair, h2]
  · rintro (h1 | h2) classify2
    · by_cases h2 : cleanOne vocab ntt p.2 = "" <;> simp [predictPair, h1, h2]
    · simp [predictPair, h2]

theorem decision_edge_cases_witness :
    predictPair testVocab ntt0 cl9 ("hello world", "") = "1" ∧
    predictPair testVocab ntt0 cl9 ("", "i") = "2" ∧
    predictPair testVocab ntt0 cl9 ("", "") = "1" :=
  ⟨(decision_edge_cases testVocab ntt0 cl9 ("hello world", "")).1 (by decide),
   (decision_edge_cases testVocab ntt0 cl9 ("", "i")).2.1 (by decide) (by decide),
   (decision_edge_cases testVocab ntt0 cl9 ("", "")).2.2.1 ⟨by decide, by decide⟩⟩

/-- Claim C2 (code bug, evaluation at the failing input): on "2 21" (with
the number-to-text collaborator giving "two" and "twenty one"), the
iterated global `re.sub` of `_num_replace` replaces the digit "2" inside
the run "21" as well, producing " two   two 1": the maximal run "21" is
never expanded and the digit "1" survives, instead of the claimed
position-consistent " two   twenty one ". -/
theorem numReplace_failing_input :
    String.mk (numReplace nttEx "2 21".data) = " two   two 1" ∧
    String.mk (numReplace nttEx "2 21".data) ≠ " two   twenty one " :=
  ⟨by decide, by decide⟩

/-- Claim C3: every whitespace token of a normalizer output is a
vocabulary key. -/
theorem normalizer_tokens_in_vocab (vocab : String → Option Nat)
    (ntt : List Char → List Char) (s : String) :
    ∀ t ∈ pyTokens (cleanOne vocab ntt s), (vocab t).isSome := by
  intro t ht
  rw [cleanOne_def, pyTokens_mk, cleanerOne_def, splitRuns_oovClean] at ht
  obtain ⟨tok, htok, rfl⟩ := List.mem_map.1 ht
  exact (List.mem_filter.1 htok).2

theorem normalizer_tokens_in_vocab_witness :
    "i" ∈ pyTokens (cleanOne testVocab ntt0 "i qqqzz think") ∧
    (testVocab "i").isSome :=
  ⟨by decide,
   normalizer_tokens_in_vocab testVocab ntt0 "i qqqzz think" "i" (by decide)⟩

/-- Claim C4: for clean (normalized-shape) strings, an out-of-vocabulary
token makes both the indexer and the WMD vocabulary lookup fail with the
missing-word error (no default is substituted, and no solver value
exists); conversely with every token in the vocabulary both succeed. -/
theorem metric_engine_oov (vocab : String → Option Nat) (s1 s2 : String)
    (h1 : CleanStr s1) (h2 : CleanStr s2) :
    ((∃ t, (t ∈ pyTokens s1 ∨ t ∈ pyTokens s2) ∧ vocab t = none) →
      (∃ e, indexer vocab s1 s2 = Except.error e) ∧
      (∃ e, lookAll vocab (wmdFeatures s1 s2) = Except.error e) ∧
      (∀ emb c, ¬ wmdColl vocab emb s1 s2 c)) ∧
    ((∀ t, (t ∈ pyTokens s1 ∨ t ∈ pyTokens s2) → (vocab t).isSome) →
      (∃ r, indexer vocab s1 s2 = Except.ok r) ∧
      (∃ idxs, lookAll vocab (wmdFeatures s1 s2) = Except.ok idxs)) := by
  have hcv1 := cvTokens_eq_pyTokens s1 h1
  have hcv2 := cvTokens_eq_pyTokens s2 h2
  constructor
  · rintro ⟨t, ht, hnone⟩
    have hwmderr : ∃ e, lookAll vocab (wmdFeatures s1 s2) = Except.error e := by
      apply lookAll_error_of_mem vocab _ t _ hnone
      rw [mem_wmdFeatures, List.mem_append, hcv1, hcv2]
      exact ht
    refine ⟨?_, hwmderr, ?_⟩
    · rcases ht with ht1 | ht2
      · obtain ⟨e, he⟩ := lookAll_error_of_mem vocab _ t ht1 hnone
        exact ⟨e, indexer_error_left vocab s1 s2 e he⟩
      · match hA : lookAll vocab (pyTokens s1) with
        | Except.error e => exact ⟨e, indexer_error_left vocab s1 s2 e hA⟩
        | Except.ok L1 =>
          obtain ⟨e, he⟩ := lookAll_error_of_mem vocab _ t ht2 hnone
          exact ⟨e, indexer_error_right vocab s1 s2 L1 e hA he⟩
    · intro emb c hcoll
      obtain ⟨idxs, hok, _⟩ := hcoll
      obtain ⟨e, he⟩ := hwmderr
      rw [he] at hok
      exact Except.noConfusion hok
  · intro hall
    have hA := lookAll_ok_of_all vocab (pyTokens s1) (fun w hw => hall w (Or.inl hw))
    have hB := lookAll_ok_of_all vocab (pyTokens s2) (fun w hw => hall w (Or.inr hw))
    refine ⟨⟨_, indexer_eq_of_ok vocab s1 s2 _ _ hA hB⟩, ?_⟩
    refine ⟨_, lookAll_ok_of_all vocab (wmdFeatures s1 s2) ?_⟩
    intro w hw
    rw [mem_wmdFeatures, List.mem_append, hcv1, hcv2] at hw
    exact hall w hw

theorem metric_engine_oov_witness :
    (∃ e, indexer uniVocab "a" "b" = Except.error e) ∧
    (∀ emb c, ¬ wmdColl uniVocab emb "a" "b" c) ∧
    (∃ r, indexer uniVocab "a" "a" = Except.ok r) ∧
    (∃ idxs, lookAll uniVocab (wmdFeatures "a" "a") = Except.ok idxs) := by
  have hab := metric_engine_oov uniVocab "a" "b" (by decide) (by decide)
  have haa := metric_engine_oov uniVocab "a" "a" (by decide) (by decide)
  obtain ⟨hi, hw, hn⟩ := hab.1 ⟨"b", Or.inr (by decide), by decide⟩
  have hsome : ∀ t, (t ∈ pyTokens "a" ∨ t ∈ pyTokens "a") → (uniVocab t).isSome := by
    intro t ht
    have hpa : pyTokens "a" = ["a"] := by decide
    have hta : t = "a" := by
      rcases ht with h | h <;> (rw [hpa] at h; exact List.mem_singleton.1 h)
    subst hta
    decide
  obtain ⟨hs1, hs2⟩ := haa.2 hsome
  exact ⟨hi, hn, hs1, hs2⟩

/-- Claim C5: under the all-tokens-in-vocabulary precondition, the indexer
returns `(sum2 - sum1) / (sum1 + sum2 + eps)` and is antisymmetric. -/
theorem indexer_formula_antisym (vocab : String → Option Nat) (a b : String)
    (h1 : ∀ t ∈ pyTokens a, (vocab t).isSome)
    (h2 : ∀ t ∈ pyTokens b, (vocab t).isSome) :
    indexer vocab a b =
      Except.ok ((sumIdx vocab b - sumIdx vocab a) /
        (sumIdx vocab a + sumIdx vocab b + eps)) ∧
    indexer vocab b a =
      Except.ok (-((sumIdx vocab b - sumIdx vocab a) /
        (sumIdx vocab a + sumIdx vocab b + eps))) := by
  have hA := lookAll_ok_of_all vocab (pyTokens a) h1
  have hB := lookAll_ok_of_all vocab (pyTokens b) h2
  constructor
  · rw [indexer_eq_of_ok vocab a b _ _ hA hB]
    congr 1
    rw [sumIdx, sumIdx]
    ring_nf
  · rw [indexer_eq_of_ok vocab b a _ _ hB hA]
    congr 1
    rw [sumIdx, sumIdx]
    ring_nf

theorem indexer_formula_antisym_witness :
    (∀ t ∈ pyTokens "x", (pairVocab t).isSome) ∧
    indexer pairVocab "x" "y" = Except.ok (10000 / 30001) ∧
    indexer pairVocab "y" "x" = Except.ok (-(10000 / 30001)) := by
  have h := indexer_formula_antisym pairVocab "x" "y" (by decide) (by decide)
  have e1 : sumIdx pairVocab "x" = 1 := by decide
  have e2 : sumIdx pairVocab "y" = 2 := by decide
  refine ⟨by decide, ?_, ?_⟩
  · rw [h.1, e1, e2]
    simp only [Except.ok.injEq]
    norm_num [eps]
  · rw [h.2, e1, e2]
    simp only [Except.ok.injEq]
    norm_num [eps]

/-- Claim C6 (counterexample): in the WMD computation on the pair
("a", "a"), the normalized frequency vector sums to `10000/10001`, not
exactly 1. -/
theorem wmd_norm_sum_ne_one :
    (normVec (rawVec (wmdFeatures "a" "a") "a")).sum ≠ 1 := by
  have hfeats : wmdFeatures "a" "a" = ["a"] := by decide
  have hcount : (cvTokens "a").count "a" = 1 := by decide
  have hraw : rawVec (wmdFeatures "a" "a") "a" = [(1 : ℚ)] := by
    rw [hfeats]
    simp [rawVec, hcount]
  rw [hraw, normVec_sum]
  norm_num [eps]

/-- Claim C6 (amended): after `v /= (v.sum() + eps)` each frequency vector
sums to `S / (S + eps)` where `S` is its raw count total — strictly less
than 1, never exactly 1. -/
theorem wmd_norm_sum (s1 s2 : String) :
    ((normVec (rawVec (wmdFeatures s1 s2) s1)).sum =
        (rawVec (wmdFeatures s1 s2) s1).sum /
          ((rawVec (wmdFeatures s1 s2) s1).sum + eps) ∧
      (normVec (rawVec (wmdFeatures s1 s2) s1)).sum < 1) ∧
    ((normVec (rawVec (wmdFeatures s1 s2) s2)).sum =
        (rawVec (wmdFeatures s1 s2) s2).sum /
          ((rawVec (wmdFeatures s1 s2) s2).sum + eps) ∧
      (normVec (rawVec (wmdFeatures s1 s2) s2)).sum < 1) := by
  have key : ∀ feats : List String, ∀ s : String,
      (normVec (rawVec feats s)).sum =
        (rawVec feats s).sum / ((rawVec feats s).sum + eps) ∧
      (normVec (rawVec feats s)).sum < 1 := by
    intro feats s
    have hs : 0 ≤ (rawVec feats s).sum := rawVec_sum_nonneg feats s
    have he : (0:ℚ) < eps := by norm_num [eps]
    have hd : 0 < (rawVec feats s).sum + eps := by linarith
    refine ⟨normVec_sum _, ?_⟩
    rw [normVec_sum _, div_lt_one hd]
    linarith
  exact ⟨key _ s1, key _ s2⟩

/-- Claim C7: whenever the transport solve (modelled from the spec as the
minimum-cost feasible flow) returns a value for the cosine-distance matrix
built by `_wmd_getter`, that value is non-negative; and for a pair of equal
strings, under the zero-diagonal guarantee (nonzero embedding rows), the
value is exactly 0. -/
theorem wmd_nonneg_and_self_zero (vocab : String → Option Nat)
    (emb : Nat → Fin embDim → ℝ)
    (hemb : ∀ m, (∑ i, emb m i * emb m i) ≠ 0)
    (a b : String) (ha : a ≠ "") (hb : b ≠ "") (c cself : ℝ)
    (hab : wmdColl vocab emb a b c) (haa : wmdColl vocab emb a a cself) :
    0 ≤ c ∧ cself = 0 := by
  constructor
  · obtain ⟨idxs, _, ⟨F, hF, hcost⟩, _⟩ := hab
    rw [← hcost]
    apply cost_nonneg _ _ hF.1
    intro i j
    have := cosSim_le_one (emb (idxs.getD i 0)) (emb (idxs.getD j 0))
    linarith
  · obtain ⟨idxs, _, ⟨F0, hF0, hcost0⟩, hmin⟩ := haa
    have hDpos : ∀ i j : Fin (wmdFeatures a a).length,
        0 ≤ 1 - cosSim (emb (idxs.getD i 0)) (emb (idxs.getD j 0)) := by
      intro i j
      have := cosSim_le_one (emb (idxs.getD i 0)) (emb (idxs.getD j 0))
      linarith
    have hD0 : ∀ i : Fin (wmdFeatures a a).length,
        1 - cosSim (emb (idxs.getD i 0)) (emb (idxs.getD i 0)) = 0 := by
      intro i
      rw [cosSim_self _ (hemb _)]
      ring
    have hlow : 0 ≤ cself := by
      rw [← hcost0]
      exact cost_nonneg _ _ hF0.1 hDpos
    have hv : ∀ i : Fin (wmdFeatures a a).length,
        0 ≤ ((wmdVecQ (wmdFeatures a a) a i : ℚ) : ℝ) := by
      intro i
      exact_mod_cast wmdVecQ_nonneg _ _ _
    have hup : cself ≤ 0 := by
      have hle := hmin _ (diagFlow_feasible _ hv)
      rw [diagFlow_cost _ _ hD0] at hle
      exact hle
    linarith

theorem wmdColl_aa_zero : wmdColl uniVocab embW "a" "a" 0 := by
  refine ⟨[0], by decide, ?_⟩
  apply isEMD_self_zero
  · intro i
    exact_mod_cast wmdVecQ_nonneg _ _ _
  · intro i
    rw [cosSim_self _ (embW_dot_ne_zero _)]
    ring
  · intro i j
    have := cosSim_le_one (embW (([0] : List Nat).getD i 0))
      (embW (([0] : List Nat).getD j 0))
    linarith

theorem wmd_nonneg_and_self_zero_witness :
    (∀ m, (∑ i, embW m i * embW m i) ≠ 0) ∧
    wmdColl uniVocab embW "a" "a" 0 ∧ (0 ≤ (0:ℝ) ∧ (0:ℝ) = 0) :=
  ⟨embW_dot_ne_zero, wmdColl_aa_zero,
   wmd_nonneg_and_self_zero uniVocab embW embW_dot_ne_zero "a" "a"
     (by decide) (by decide) 0 0 wmdColl_aa_zero wmdColl_aa_zero⟩

/-- Claim C8 (counterexample): the normalizer is not idempotent.  With the
synthetic vocabulary {i, think, am}, the input "i qqqzz think" normalizes
to "i think" (the OOV token is dropped), but renormalizing "i think"
removes it entirely — the filler phrase "i think", absent from the first
pass, was created by OOV removal. -/
theorem normalizer_not_idempotent :
    cleanOne testVocab ntt0 (cleanOne testVocab ntt0 "i qqqzz think") ≠
      cleanOne testVocab ntt0 "i qqqzz think" := by decide

/-- Claim C8 (amended): the normalizer is not idempotent in general; what
does hold is that every normalizer output is a fixed point of the final
OOV-filter/rejoin stage: re-running `_oov_clean` on a `_cleaner` output
returns it unchanged. -/
theorem oovClean_fixpoint_on_normalizer_output (vocab : String → Option Nat)
    (ntt : List Char → List Char) (s : String) :
    String.mk (oovClean vocab (cleanOne vocab ntt s).data) =
      cleanOne vocab ntt s := by
  rw [cleanOne_def, data_mk]
  refine congrArg String.mk ?_
  rw [cleanerOne_def]
  conv_lhs => rw [oovClean_def]
  rw [splitRuns_oovClean, List.filter_filter]
  simp only [Bool.and_self]
  rw [oovClean_def]

/-- Claim C9: there is an input on which running filler removal before
contraction expansion changes the normalizer output — here `i'm` (with
vocabulary {i, think, am}): the specified order expands to "i am" and then
removes the filler "am", giving "i"; the swapped order leaves "i am". -/
theorem normalizer_order_sensitive :
    ∃ s : String, cleanOneSwapped testVocab ntt0 s ≠ cleanOne testVocab ntt0 s :=
  ⟨strIm, by decide⟩

/-- Claim C10: every normalizer output is in canonical spacing form: it
equals the single-space join of its own whitespace-split token list. -/
theorem normalizer_canonical_spacing (vocab : String → Option Nat)
    (ntt : List Char → List Char) (s : String) :
    joinTokens (pyTokens (cleanOne vocab ntt s)) = cleanOne vocab ntt s := by
  rw [cleanOne_def, pyTokens_mk, joinTokens_def]
  refine congrArg String.mk ?_
  rw [List.map_map]
  have hcomp : (String.data ∘ String.mk) = id := rfl
  rw [hcomp, List.map_id, cleanerOne_def, splitRuns_oovClean, oovClean_def]

end SVC
